import Mathlib

/-!
Verification development for codecollector (codecollector/codecollector.py).

Lines of text are modelled as lists of characters (`List Char`); the Python
string primitives used by the source (`str.find`, `str.strip`, `str.lower`,
slicing) are modelled by explicit functions below.  Each definition mirrors
the Python function of the same name.
-/

/-- Python whitespace test used by `str.strip` (ASCII range). -/
def pyIsSpace (c : Char) : Bool :=
  c == ' ' || c == '\t' || c == '\n' || c == '\r' || c == '\x0b' || c == '\x0c'

/-- Boolean test that the first list is an initial segment of the second. -/
def isPre : List Char → List Char → Bool
  | [], _ => true
  | _ :: _, [] => false
  | a :: x, b :: y => a == b && isPre x y

/-- Python `s.find(sub)`: index of the first occurrence of `sub` in `s`
(`none` models the return value `-1`). -/
def findSub (sub : List Char) : List Char → Option Nat
  | [] => if isPre sub [] then some 0 else none
  | c :: rest =>
    if isPre sub (c :: rest) then some 0 else (findSub sub rest).map (· + 1)

/-- Python `s.find(sub, start)`: first occurrence at an index `≥ start`. -/
def findFrom (sub s : List Char) (start : Nat) : Option Nat :=
  (findSub sub (s.drop start)).map (· + start)

/-- The comment token kinds probed inside `remove_comments`, in the order in
which the source appends them to its `candidates` list. -/
inductive CTok where
  | block | docBlock | lineSlash | hash | html | sqlDash
deriving DecidableEq

/-- The character sequence searched for each token kind. -/
def ctokChars : CTok → List Char
  | .block => ['/', '*']
  | .docBlock => ['/', '*', '*']
  | .lineSlash => ['/', '/']
  | .hash => ['#']
  | .html => ['<', '!', '-', '-']
  | .sqlDash => ['-', '-']

/-- One conditional append `if tok != -1: candidates.append(...)`. -/
def cand1 (ct : CTok) (line : List Char) : List (CTok × Nat) :=
  match findSub (ctokChars ct) line with
  | some j => [(ct, j)]
  | none => []

/-- The `candidates` list built per loop iteration in `remove_comments`. -/
def candidates (line : List Char) : List (CTok × Nat) :=
  cand1 .block line ++ cand1 .docBlock line ++ cand1 .lineSlash line ++
  cand1 .hash line ++ cand1 .html line ++ cand1 .sqlDash line

/-- Python `min(candidates, key=lambda x: x[1])`: the first element carrying
the minimal index. -/
def minCandidate : List (CTok × Nat) → Option (CTok × Nat)
  | [] => none
  | c :: cs => some (cs.foldl (fun best x => if x.2 < best.2 then x else best) c)

/-- The `while True` scanning loop of `remove_comments`, acting on one line in
the CODE state.  Returns the line after comment excision together with the
`in_multiline_comment` flag at loop exit.  `fuel` bounds the number of loop
iterations; every excision removes at least four characters, so
`line.length + 1` iterations always suffice (see `processLine`). -/
def processCode : Nat → List Char → List Char × Bool
  | 0, line => (line, false)
  | fuel + 1, line =>
    match minCandidate (candidates line) with
    | none => (line, false)
    | some (ct, k) =>
      match ct with
      | .block | .docBlock =>
        match findFrom ['*', '/'] line (k + 2) with
        | some e => processCode fuel (line.take k ++ line.drop (e + 2))
        | none => (line.take k, true)
      | .lineSlash | .hash | .sqlDash => (line.take k, false)
      | .html =>
        match findFrom ['-', '-', '>'] line (k + 4) with
        | some e => processCode fuel (line.take k ++ line.drop (e + 3))
        | none => (line.take k, true)

/-- The scanning loop started on a given line, with enough fuel. -/
def processLine (line : List Char) : List Char × Bool :=
  processCode (line.length + 1) line

/-- The per-line `for` loop of `remove_comments`, threading the
`in_multiline_comment` flag across lines.  While the flag is set, the source
searches for the close marker `*/` (only): if absent the whole line is
dropped, otherwise scanning resumes just after the marker.  A processed line
is kept only when `line.strip() != ''`. -/
def removeGo : Bool → List (List Char) → List (List Char)
  | _, [] => []
  | true, line :: rest =>
    match findSub ['*', '/'] line with
    | some e =>
      (if (processLine (line.drop (e + 2))).1.all pyIsSpace then []
       else [(processLine (line.drop (e + 2))).1]) ++
      removeGo (processLine (line.drop (e + 2))).2 rest
    | none => removeGo true rest
  | false, line :: rest =>
    (if (processLine line).1.all pyIsSpace then [] else [(processLine line).1])
    ++ removeGo (processLine line).2 rest

/-- No occurrence of any of the six probed comment tokens. -/
def tokensAbsent (line : List Char) : Prop :=
  ∀ ct : CTok, findSub (ctokChars ct) line = none

/-- `remove_comments(lines, file_extension)` from codecollector.py.  The
`file_extension` parameter is accepted and ignored, exactly as in the source
(the body never reads it). -/
def remove_comments (lines : List (List Char)) (file_extension : String) :
    List (List Char) :=
  removeGo false lines

/-! ### Regular expressions

A small executable regex engine (Brzozowski derivatives) used to embed the
`re` patterns of `is_import_line` and `should_remove_entire_line`. -/

/-- Regular expressions over characters: empty language, empty word, a
character class, concatenation, alternation, Kleene star. -/
inductive Re where
  | emp : Re
  | eps : Re
  | cls (p : Char → Bool) : Re
  | seq (a b : Re) : Re
  | alt (a b : Re) : Re
  | star (a : Re) : Re

/-- Does the regex accept the empty word? -/
def Re.nullable : Re → Bool
  | .emp => false
  | .eps => true
  | .cls _ => false
  | .seq a b => a.nullable && b.nullable
  | .alt a b => a.nullable || b.nullable
  | .star _ => true

/-- Brzozowski derivative with respect to one character. -/
def Re.deriv : Re → Char → Re
  | .emp, _ => .emp
  | .eps, _ => .emp
  | .cls p, c => if p c then .eps else .emp
  | .seq a b, c =>
    if a.nullable then .alt (.seq (a.deriv c) b) (b.deriv c)
    else .seq (a.deriv c) b
  | .alt a b, c => .alt (a.deriv c) (b.deriv c)
  | .star a, c => .seq (a.deriv c) (.star a)

/-- Full-word acceptance. -/
def Re.accept : Re → List Char → Bool
  | r, [] => r.nullable
  | r, c :: s => (r.deriv c).accept s

/-- Python `re.match` truthiness: does the regex accept some initial segment
of the input? -/
def Re.matchStart : Re → List Char → Bool
  | r, [] => r.nullable
  | r, c :: s => r.nullable || (r.deriv c).matchStart s

/-- A literal string as a regex. -/
def reLit (s : String) : Re :=
  s.toList.foldr (fun c acc => Re.seq (Re.cls (fun x => x == c)) acc) Re.eps

/-- `r+`. -/
def rePlus (r : Re) : Re := Re.seq r (Re.star r)

/-- `r?`. -/
def reOpt (r : Re) : Re := Re.alt Re.eps r

/-- Concatenation of a list of regexes. -/
def reCat (l : List Re) : Re := l.foldr Re.seq Re.eps

/-- The character class `[\w.]` (ASCII word characters and the dot). -/
def isWordDot (c : Char) : Bool := c.isAlphanum || c == '_' || c == '.'

/-- `.` (any character but a newline). -/
def reDot : Re := Re.cls (fun c => !(c == '\n'))

/-- `^\s*import\s+[\w.]+` (the `.kt` / `.kts` pattern). -/
def reImportKt : Re :=
  reCat [Re.star (Re.cls pyIsSpace), reLit "import", rePlus (Re.cls pyIsSpace),
         rePlus (Re.cls isWordDot)]

/-- `^\s*import\s+[\w.]+;` (the `.java` pattern). -/
def reImportJava : Re :=
  reCat [Re.star (Re.cls pyIsSpace), reLit "import", rePlus (Re.cls pyIsSpace),
         rePlus (Re.cls isWordDot), reLit ";"]

/-- `^\s*import\s+.*\s+from\s+.*;?` (the `.js` / `.ts` pattern). -/
def reImportJs : Re :=
  reCat [Re.star (Re.cls pyIsSpace), reLit "import", rePlus (Re.cls pyIsSpace),
         Re.star reDot, rePlus (Re.cls pyIsSpace), reLit "from",
         rePlus (Re.cls pyIsSpace), Re.star reDot, reOpt (reLit ";")]

/-- `<script[^>]*>\s*import\s+.*\s+from\s+.*;\s*</script>` (`.svelte`). -/
def reImportSvelte : Re :=
  reCat [reLit "<script", Re.star (Re.cls (fun c => !(c == '>'))), reLit ">",
         Re.star (Re.cls pyIsSpace), reLit "import", rePlus (Re.cls pyIsSpace),
         Re.star reDot, rePlus (Re.cls pyIsSpace), reLit "from",
         rePlus (Re.cls pyIsSpace), Re.star reDot, reLit ";",
         Re.star (Re.cls pyIsSpace), reLit "</script>"]

/-- The `import_patterns` dictionary of `is_import_line`. -/
def import_patterns : List (String × Re) :=
  [(".kt", reImportKt), (".kts", reImportKt), (".java", reImportJava),
   (".js", reImportJs), (".ts", reImportJs), (".svelte", reImportSvelte)]

/-- `is_import_line(line, file_extension)` from codecollector.py:
`import_patterns.get(file_extension, None)` followed by `pattern.match`. -/
def is_import_line (line : List Char) (file_extension : String) : Bool :=
  match import_patterns.lookup file_extension with
  | some pat => pat.matchStart line
  | none => false

/-- `^\s*package\s`. -/
def rePackage : Re :=
  reCat [Re.star (Re.cls pyIsSpace), reLit "package", Re.cls pyIsSpace]

/-- `should_remove_entire_line(line, file_extension)` from codecollector.py. -/
def should_remove_entire_line (line : List Char) (file_extension : String) :
    Bool :=
  if [".kt", ".kts", ".java"].contains file_extension then
    rePackage.matchStart line
  else false

/-- The per-file filtering pipeline applied by `write_output` to one
successfully read file: `remove_comments`, then skip every line for which
`is_import_line` or `should_remove_entire_line` holds. -/
def filter_file_lines (lines : List (List Char)) (file_extension : String) :
    List (List Char) :=
  (remove_comments lines file_extension).filter
    (fun line =>
      !is_import_line line file_extension &&
      !should_remove_entire_line line file_extension)

/-! ### write_output -/

/-- Split a character list on a separator character (Python `str.split`). -/
def splitOnChar (sep : Char) : List Char → List (List Char)
  | [] => [[]]
  | c :: rest =>
    match splitOnChar sep rest with
    | [] => [[c]]
    | h :: t => if c == sep then [] :: h :: t else (c :: h) :: t

/-- `pathlib.PurePath.suffix`: the extension of the final path component,
nonempty only when the final component has an interior dot that is neither
its first nor its last character. -/
def pathSuffix (path : String) : String :=
  let name := (splitOnChar '/' path.toList).getLastD []
  if name.contains '.' then
    let pre := name.reverse.takeWhile (fun c => !(c == '.'))
    let i := name.length - 1 - pre.length
    if 0 < i ∧ i < name.length - 1 then (name.drop i).asString else ""
  else ""

/-- The delimiter `write_output` emits before each file body. -/
def header (path : String) : List Char := ("\n\n" ++ path ++ "\n\n").toList

/-- The text `write_output` contributes for one collected file.  The result
of the `try` block is modelled as an `Except`: `.ok lines` is a successful
read (`readlines`), `.error e` a read that raised with message `e`, for which
the `except` branch writes the inline placeholder comment. -/
def fileChunk : String × Except String (List (List Char)) → List Char
  | (path, .ok lines) =>
    header path ++ (filter_file_lines lines (pathSuffix path)).flatten
  | (path, .error e) =>
    header path ++ ("<!-- Could not read file: " ++ e ++ " -->\n").toList

/-- The `for file_path in collected_files` loop of `write_output`. -/
def concatChunks : List (String × Except String (List (List Char))) →
    List Char
  | [] => []
  | x :: xs => fileChunk x ++ concatChunks xs

/-- `write_output(collected_files, ...)` from codecollector.py, as the full
text written to the output file. -/
def write_output
    (collected_files : List (String × Except String (List (List Char)))) :
    List Char :=
  match collected_files with
  | [] => "\n\n[No files found with the specified extensions.]\n".toList
  | _ :: _ => concatChunks collected_files

/-! ### gitignore patterns -/

/-- Python `str.strip()` on a character list. -/
def stripChars (l : List Char) : List Char :=
  ((l.dropWhile pyIsSpace).reverse.dropWhile pyIsSpace).reverse

/-- The filter `p.strip() and not p.strip().startswith('#')` applied to the
raw lines of a `.gitignore` file. -/
def keepPatternLine (p : String) : Bool :=
  let st := stripChars p.toList
  !st.isEmpty && !(isPre ['#'] st)

/-- The rebasing of one `.gitignore` pattern in `collect_gitignore_patterns`:
strip leading slashes (`lstrip('/')`) and, unless the `.gitignore` sits at the
traversal root (`relative_base` is `""` or `"."`), prepend
`relative_base + "/"`. -/
def rebase_pattern (relative_base : String) (p : String) : String :=
  match p.toList with
  | '/' :: _ =>
    let stripped := (p.toList.dropWhile (fun c => c == '/')).asString
    if relative_base == "" || relative_base == "." then stripped
    else relative_base ++ "/" ++ stripped
  | _ =>
    let p2 := (p.toList.dropWhile (fun c => c == '/')).asString
    if relative_base == "" || relative_base == "." then p2
    else relative_base ++ "/" ++ p2

/-- A parsed gitwildmatch pattern. -/
structure GitPattern where
  negated : Bool
  dirOnly : Bool
  anchored : Bool
  segs : List (List Char)
deriving DecidableEq

/-- Modelled from the external `pathspec` dependency: the gitwildmatch parse
of one pattern string, restricted to the constructs the tool's rebased
patterns can contain.  A leading `!` negates; a trailing `/` restricts the
pattern to directories; a pattern containing a slash elsewhere is anchored at
the root of the matched path space; a slash-free pattern floats to any
depth. -/
def parseGitPattern (s : String) : GitPattern :=
  let cs := s.toList
  let negated := isPre ['!'] cs
  let body := if negated then cs.drop 1 else cs
  let dirOnly := body.getLast? == some '/'
  let core := if dirOnly then body.dropLast else body
  let anchoredLead := isPre ['/'] core
  let core2 := if anchoredLead then core.drop 1 else core
  { negated := negated, dirOnly := dirOnly,
    anchored := anchoredLead || core2.contains '/',
    segs := splitOnChar '/' core2 }

/-- One glob segment as a regex: `*` matches any run of characters inside the
segment, every other character matches itself. -/
def globSegRe (ps : List Char) : Re :=
  ps.foldr (fun c acc =>
    if c == '*' then Re.seq (Re.star (Re.cls (fun _ => true))) acc
    else Re.seq (Re.cls (fun x => x == c)) acc) Re.eps

/-- Glob match of one pattern segment against one path segment. -/
def segMatch (ps s : List Char) : Bool := (globSegRe ps).accept s

/-- Match the pattern segments against path segments from a fixed alignment.
A pattern that consumes a proper prefix of the path matches (it names an
ancestor directory of the path); a pattern consuming the whole path matches
unless it is directory-only and the path is not a directory. -/
def matchSegs : List (List Char) → List (List Char) → Bool → Bool → Bool
  | [], [], isDir, dirOnly => !dirOnly || isDir
  | [], _ :: _, _, _ => true
  | _ :: _, [], _, _ => false
  | p :: ps, s :: ss, isDir, dirOnly => segMatch p s && matchSegs ps ss isDir dirOnly

/-- Match one parsed pattern against a path given as segments plus a
directory flag: anchored patterns align at the first segment only, floating
patterns at any segment. -/
def gitMatchOne (pat : GitPattern) (path : List (List Char)) (isDir : Bool) :
    Bool :=
  if pat.anchored then matchSegs pat.segs path isDir pat.dirOnly
  else
    (List.range (path.length + 1)).any fun i =>
      matchSegs pat.segs (path.drop i) isDir pat.dirOnly

/-- Modelled from the external `pathspec` dependency:
`PathSpec.from_lines('gitwildmatch', patterns).match_file(path)`.  Patterns
are tried in order and the last matching pattern decides; a matching negated
pattern un-ignores the path.  The tool queries directories with a trailing
slash, which is translated into the `isDir` flag. -/
def match_file (patterns : List String) (path : String) : Bool :=
  let parts := splitOnChar '/' path.toList
  let isDir := parts.getLast? == some []
  let segs := if isDir then parts.dropLast else parts
  let res := patterns.foldl (fun acc p =>
    let gp := parseGitPattern p
    if gitMatchOne gp segs isDir then some (!gp.negated) else acc)
    (none : Option Bool)
  res.getD false

/-! ### The directory tree and the walks over it -/

/-- A directory tree: files carry their text lines (used only for
`.gitignore` files, whose lines are stored as produced by `splitlines`,
without terminators), directories carry their entries in listing order. -/
inductive FSEntry where
  | file (name : String) (lines : List String) : FSEntry
  | dir (name : String) (children : List FSEntry) : FSEntry

mutual

/-- Size of one tree entry, used as recursion fuel for the walks. -/
def entrySize : FSEntry → Nat
  | .file _ _ => 1
  | .dir _ cs => 1 + sizeEntries cs

/-- Total size of a list of tree entries. -/
def sizeEntries : List FSEntry → Nat
  | [] => 0
  | e :: es => entrySize e + sizeEntries es

end

/-- POSIX rendering of a relative path held as segments. -/
def as_posix (segs : List String) : String := String.intercalate "/" segs

/-- `Path(start_dir).rglob('.gitignore')` together with reading each file:
every (parent-directory, lines) pair for a file named `.gitignore` anywhere
in the tree, in preorder.  `fuel` bounds the recursion depth; `sizeEntries`
of the tree always suffices. -/
def gitignoreEntries :
    Nat → List String → List FSEntry → List (List String × List String)
  | 0, _, _ => []
  | fuel + 1, cur, entries =>
    (entries.filterMap fun e =>
      match e with
      | .file name lines =>
        if name == ".gitignore" then some (cur, lines) else none
      | .dir _ _ => none)
    ++ (entries.map fun e =>
        match e with
        | .dir n cs => gitignoreEntries fuel (cur ++ [n]) cs
        | .file _ _ => []).flatten

/-- `collect_gitignore_patterns(start_dir)` from codecollector.py, up to the
final `PathSpec.from_lines` call: the list of rebased pattern strings
accumulated in `all_patterns`.  For each discovered `.gitignore`,
`relative_base` is the POSIX form of its parent directory relative to the
root (`"."` at the root itself, as `str(Path('.'))` renders). -/
def collect_gitignore_patterns (start_dir : List FSEntry) : List String :=
  ((gitignoreEntries (sizeEntries start_dir + 1) [] start_dir).map fun gi =>
    let patterns := gi.2.filter keepPatternLine
    let relative_base := if gi.1.isEmpty then "." else as_posix gi.1
    patterns.map (rebase_pattern relative_base)).flatten

/-- `file.lower().endswith(extensions)`: the lowercased file name ends with
one of the extension strings. -/
def extMatch (extensions : List String) (file : String) : Bool :=
  extensions.any fun ext =>
    isPre ext.toList.reverse ((file.toList.map Char.toLower).reverse)

/-- The `os.walk` loop of `collect_files`: at each directory, child
directories whose bare name is in `exclude_dirs` or whose relative path (with
a trailing slash) the ignore matcher reports ignored are pruned before
descending; files of the current directory are emitted before descending,
skipping files the matcher reports ignored, keeping those whose lowercased
name ends in one of the extensions.  `fuel` bounds recursion depth. -/
def walkFS (extensions exclude_dirs : List String)
    (ignore_spec : String → Bool) :
    Nat → List String → List FSEntry → List (List String)
  | 0, _, _ => []
  | fuel + 1, cur, entries =>
    let files := entries.filterMap fun e =>
      match e with
      | .file n _ => some n
      | .dir _ _ => none
    let dirs := entries.filterMap fun e =>
      match e with
      | .dir n cs => some (n, cs)
      | .file _ _ => none
    let kept := dirs.filter fun d =>
      !(exclude_dirs.contains d.1) &&
      !(ignore_spec (as_posix (cur ++ [d.1]) ++ "/"))
    ((files.filter fun f =>
        !(ignore_spec (as_posix (cur ++ [f]))) && extMatch extensions f).map
      (fun f => cur ++ [f]))
    ++ (kept.map fun d =>
        walkFS extensions exclude_dirs ignore_spec fuel (cur ++ [d.1]) d.2).flatten

/-- `collect_files(start_dir, extensions, exclude_dirs, ignore_spec)` from
codecollector.py, returning collected file paths as root-relative segment
lists.  The ignore matcher is kept abstract (`String → Bool`), exactly the
interface `match_file` offers the walk. -/
def collect_files (start_dir : List FSEntry) (extensions : List String)
    (exclude_dirs : List String) (ignore_spec : String → Bool) :
    List (List String) :=
  walkFS extensions exclude_dirs ignore_spec (sizeEntries start_dir + 1) []
    start_dir

/-- Concrete tree for the negation scenario: a root `.gitignore` ignoring
`*.log` and a nested `sub/.gitignore` re-including `keep.log`. -/
def sampleTreeNegation : List FSEntry :=
  [.file ".gitignore" ["*.log"],
   .dir "sub" [.file ".gitignore" ["!keep.log"], .file "keep.log" []]]

/-- Concrete tree for the anchoring scenario: a root `.gitignore` with the
anchored pattern `/name` and a deeper same-named entry. -/
def sampleTreeAnchored : List FSEntry :=
  [.file ".gitignore" ["/name"], .dir "deep" [.file "name" []]]

/-- Concrete tree for the nested-ignore scenario: the root `.gitignore`
ignores `build/`, yet `build` contains its own `.gitignore`. -/
def sampleTreeNestedIgnore : List FSEntry :=
  [.file ".gitignore" ["build/"],
   .dir "build" [.file ".gitignore" ["*.py"], .file "a.py" []]]

example : remove_comments ["a /* b */ c".toList] ".js" = ["a  c".toList] := by
  decide

example : remove_comments ["x = 1  # note".toList, "".toList] ".py"
    = ["x = 1  ".toList] := by decide

example :
    remove_comments ["a /* open".toList, "in */ tail".toList] ".js"
      = ["a ".toList, " tail".toList] := by decide

example : collect_gitignore_patterns sampleTreeNegation
    = ["*.log", "sub/!keep.log"] := by decide

example : match_file (collect_gitignore_patterns sampleTreeNegation)
    "sub/keep.log" = true := by decide

example : match_file ["*.log", "!sub/keep.log"] "sub/keep.log" = false := by
  decide

example : match_file (collect_gitignore_patterns sampleTreeAnchored)
    "deep/name" = true := by decide

example : match_file (collect_gitignore_patterns sampleTreeNestedIgnore)
    "build/" = true := by decide

example : collect_files sampleTreeNestedIgnore [".py"] []
    (match_file (collect_gitignore_patterns sampleTreeNestedIgnore)) = [] := by
  decide

example : is_import_line "import com.y.Z;".toList ".java" = true := by decide

example : is_import_line "import os".toList ".py" = false := by decide

example : should_remove_entire_line "package com.x;".toList ".java" = true := by
  decide

example : filter_file_lines
    ["package com.x;\n".toList, "import com.y.Z;\n".toList, "/* header\n".toList,
     " comment */\n".toList, "class B {}\n".toList] ".java"
    = ["class B {}\n".toList] := by decide

/-! ### Lemmas about the string-search primitives -/

theorem isPre_append (x : List Char) : ∀ t, isPre x (x ++ t) = true := by
  induction x with
  | nil => intro t; rfl
  | cons a x ih => intro t; simp [isPre, ih]

theorem exists_of_isPre :
    ∀ (x y : List Char), isPre x y = true → ∃ t, y = x ++ t := by
  intro x
  induction x with
  | nil => intro y _; exact ⟨y, rfl⟩
  | cons a x ih =>
    intro y h
    cases y with
    | nil => simp [isPre] at h
    | cons b y2 =>
      simp only [isPre, Bool.and_eq_true, beq_iff_eq] at h
      obtain ⟨t, ht⟩ := ih y2 h.2
      exact ⟨t, by rw [← h.1, ht]; rfl⟩

theorem isPre_length {x y : List Char} (h : isPre x y = true) :
    x.length ≤ y.length := by
  obtain ⟨t, ht⟩ := exists_of_isPre x y h
  subst ht; simp

theorem isPre_of_take {x y : List Char} {n : Nat}
    (h : isPre x (y.take n) = true) : isPre x y = true := by
  obtain ⟨t, ht⟩ := exists_of_isPre _ _ h
  have h2 : y = x ++ (t ++ y.drop n) := by
    conv_lhs => rw [← List.take_append_drop n y]
    rw [ht, List.append_assoc]
  rw [h2]; exact isPre_append x _

theorem take_drop_swap (l : List Char) (m n : Nat) :
    (l.take m).drop n = (l.drop n).take (m - n) := by
  induction l generalizing m n with
  | nil => simp
  | cons c t ih =>
    cases m with
    | zero => simp
    | succ m2 =>
      cases n with
      | zero => simp
      | succ n2 => simpa [Nat.succ_sub_succ] using ih m2 n2

theorem findSub_isPre {sub : List Char} :
    ∀ (s : List Char) (j : Nat), findSub sub s = some j →
      isPre sub (s.drop j) = true := by
  intro s
  induction s with
  | nil =>
    intro j h
    simp only [findSub] at h
    split at h
    · next hp => injection h with h; subst h; simpa using hp
    · cases h
  | cons c rest ih =>
    intro j h
    simp only [findSub] at h
    split at h
    · next hp => injection h with h; subst h; simpa using hp
    · cases hf : findSub sub rest with
      | none => rw [hf] at h; cases h
      | some j0 =>
        rw [hf] at h
        simp only [Option.map_some'] at h
        injection h with h; subst h
        simpa using ih j0 hf

theorem findSub_lt_isPre {sub : List Char} :
    ∀ (s : List Char) (j : Nat), findSub sub s = some j →
      ∀ i, i < j → isPre sub (s.drop i) = false := by
  intro s
  induction s with
  | nil =>
    intro j h i hi
    simp only [findSub] at h
    split at h
    · injection h with h; omega
    · cases h
  | cons c rest ih =>
    intro j h i hi
    simp only [findSub] at h
    split at h
    · injection h with h; omega
    · next hp =>
      cases hf : findSub sub rest with
      | none => rw [hf] at h; cases h
      | some j0 =>
        rw [hf] at h
        simp only [Option.map_some'] at h
        injection h with h; subst h
        cases i with
        | zero => simpa using hp
        | succ i2 => simpa using ih j0 hf i2 (by omega)

theorem findSub_none_isPre {sub : List Char} :
    ∀ (s : List Char), findSub sub s = none →
      ∀ i, isPre sub (s.drop i) = false := by
  intro s
  induction s with
  | nil =>
    intro h i
    simp only [findSub] at h
    split at h
    · cases h
    · next hp => simpa using hp
  | cons c rest ih =>
    intro h i
    simp only [findSub] at h
    split at h
    · cases h
    · next hp =>
      cases hf : findSub sub rest with
      | none =>
        cases i with
        | zero => simpa using hp
        | succ i2 => simpa using ih hf i2
      | some j0 => rw [hf] at h; cases h

theorem findSub_exists {sub s : List Char} {i : Nat}
    (h : isPre sub (s.drop i) = true) :
    ∃ j, findSub sub s = some j ∧ j ≤ i := by
  cases hf : findSub sub s with
  | none =>
    have := findSub_none_isPre s hf i
    rw [h] at this; cases this
  | some j =>
    refine ⟨j, rfl, ?_⟩
    by_contra hlt
    have := findSub_lt_isPre s j hf i (by omega)
    rw [h] at this; cases this

theorem findSub_le_length {sub : List Char} :
    ∀ (s : List Char) (j : Nat), findSub sub s = some j → j ≤ s.length := by
  intro s
  induction s with
  | nil =>
    intro j h
    simp only [findSub] at h
    split at h
    · injection h with h; omega
    · cases h
  | cons c rest ih =>
    intro j h
    simp only [findSub] at h
    split at h
    · injection h with h; omega
    · cases hf : findSub sub rest with
      | none => rw [hf] at h; cases h
      | some j0 =>
        rw [hf] at h
        simp only [Option.map_some'] at h
        injection h with h; subst h
        have := ih j0 hf
        simp; omega

theorem findSub_bound {sub s : List Char} {j : Nat}
    (h : findSub sub s = some j) : j + sub.length ≤ s.length := by
  have h1 := isPre_length (findSub_isPre s j h)
  have h2 := findSub_le_length s j h
  rw [List.length_drop] at h1
  omega

theorem findFrom_bound {sub s : List Char} {start e : Nat} (hne : sub ≠ [])
    (h : findFrom sub s start = some e) :
    start ≤ e ∧ e + sub.length ≤ s.length := by
  unfold findFrom at h
  cases hf : findSub sub (s.drop start) with
  | none => rw [hf] at h; cases h
  | some j =>
    rw [hf] at h
    simp only [Option.map_some'] at h
    injection h with h; subst h
    have hb := findSub_bound hf
    rw [List.length_drop] at hb
    have hlen1 : 1 ≤ sub.length := by
      cases sub with
      | nil => exact absurd rfl hne
      | cons a x => simp
    omega

/-! ### Lemmas about the candidate scan -/

theorem cand1_mem {ct : CTok} {line : List Char} {p : CTok × Nat}
    (h : p ∈ cand1 ct line) :
    p.1 = ct ∧ findSub (ctokChars ct) line = some p.2 := by
  unfold cand1 at h
  cases hf : findSub (ctokChars ct) line with
  | none => rw [hf] at h; cases h
  | some j =>
    rw [hf] at h
    simp only [List.mem_singleton] at h
    subst h
    exact ⟨rfl, rfl⟩

theorem candidates_mem {line : List Char} {p : CTok × Nat}
    (h : p ∈ candidates line) : findSub (ctokChars p.1) line = some p.2 := by
  unfold candidates at h
  simp only [List.mem_append] at h
  rcases h with ((((h | h) | h) | h) | h) | h <;>
    (obtain ⟨h1, h2⟩ := cand1_mem h; rw [h1]; exact h2)

theorem candidates_of_findSub {line : List Char} (ct : CTok) {j : Nat}
    (h : findSub (ctokChars ct) line = some j) : (ct, j) ∈ candidates line := by
  unfold candidates
  cases ct <;> simp [cand1, h]

theorem tokensAbsent_of_candidates_nil {line : List Char}
    (h : candidates line = []) : tokensAbsent line := by
  intro ct
  cases hf : findSub (ctokChars ct) line with
  | none => rfl
  | some j =>
    have := candidates_of_findSub ct hf
    rw [h] at this
    cases this

theorem candidates_nil_of_tokensAbsent {line : List Char}
    (h : tokensAbsent line) : candidates line = [] := by
  simp [candidates, cand1, h CTok.block, h CTok.docBlock, h CTok.lineSlash,
        h CTok.hash, h CTok.html, h CTok.sqlDash]

theorem foldlMin_le (l : List (CTok × Nat)) :
    ∀ c : CTok × Nat,
      (l.foldl (fun best x => if x.2 < best.2 then x else best) c).2 ≤ c.2 ∧
      ∀ x ∈ l,
        (l.foldl (fun best x => if x.2 < best.2 then x else best) c).2 ≤ x.2 := by
  induction l with
  | nil => intro c; exact ⟨Nat.le_refl _, by simp⟩
  | cons a l ih =>
    intro c
    simp only [List.foldl_cons]
    constructor
    · refine Nat.le_trans (ih (if a.2 < c.2 then a else c)).1 ?_
      split <;> omega
    · intro x hx
      rcases List.mem_cons.mp hx with h | h
      · subst h
        refine Nat.le_trans (ih (if x.2 < c.2 then x else c)).1 ?_
        split <;> omega
      · exact (ih (if a.2 < c.2 then a else c)).2 x h

theorem foldlMin_mem (l : List (CTok × Nat)) :
    ∀ c, l.foldl (fun best x => if x.2 < best.2 then x else best) c ∈ c :: l := by
  induction l with
  | nil => intro c; simp
  | cons a l ih =>
    intro c
    simp only [List.foldl_cons]
    have h := ih (if a.2 < c.2 then a else c)
    rcases List.mem_cons.mp h with h | h
    · rw [h]
      split
      · exact List.mem_cons_of_mem _ (List.mem_cons_self _ _)
      · exact List.mem_cons_self _ _
    · exact List.mem_cons_of_mem _ (List.mem_cons_of_mem _ h)

theorem minCandidate_le {l : List (CTok × Nat)} {m : CTok × Nat}
    (h : minCandidate l = some m) : ∀ x ∈ l, m.2 ≤ x.2 := by
  cases l with
  | nil => cases h
  | cons c cs =>
    simp only [minCandidate] at h
    injection h with h
    subst h
    intro x hx
    rcases List.mem_cons.mp hx with h | h
    · subst h; exact (foldlMin_le cs x).1
    · exact (foldlMin_le cs c).2 x h

theorem minCandidate_mem {l : List (CTok × Nat)} {m : CTok × Nat}
    (h : minCandidate l = some m) : m ∈ l := by
  cases l with
  | nil => cases h
  | cons c cs =>
    simp only [minCandidate] at h
    injection h with h
    subst h
    exact foldlMin_mem cs c

theorem minCandidate_none {l : List (CTok × Nat)}
    (h : minCandidate l = none) : l = [] := by
  cases l with
  | nil => rfl
  | cons c cs => cases h

/-! ### The scanning loop leaves no comment token behind -/

theorem take_tokensAbsent {line : List Char} {ct0 : CTok} {k : Nat}
    (h : minCandidate (candidates line) = some (ct0, k)) :
    tokensAbsent (line.take k) := by
  intro ct
  cases hfs : findSub (ctokChars ct) (line.take k) with
  | none => rfl
  | some j =>
    exfalso
    have h1 := findSub_isPre _ _ hfs
    have hb := findSub_bound hfs
    have hlen1 : 1 ≤ (ctokChars ct).length := by cases ct <;> decide
    have htk : (line.take k).length ≤ k := by
      rw [List.length_take]; exact Nat.min_le_left _ _
    have h2 : isPre (ctokChars ct) (line.drop j) = true := by
      rw [take_drop_swap] at h1
      exact isPre_of_take h1
    obtain ⟨j2, hj2, hle⟩ := findSub_exists h2
    have hmem := candidates_of_findSub ct hj2
    have hk := minCandidate_le h _ hmem
    simp only at hk
    omega

theorem processCode_absent :
    ∀ (fuel : Nat) (line : List Char), line.length + 1 ≤ fuel →
      tokensAbsent (processCode fuel line).1 := by
  intro fuel
  induction fuel with
  | zero => intro line h; omega
  | succ f ih =>
    intro line hlen
    cases hmc : minCandidate (candidates line) with
    | none =>
      simp only [processCode, hmc]
      exact tokensAbsent_of_candidates_nil (minCandidate_none hmc)
    | some m =>
      obtain ⟨ct, k⟩ := m
      have hfs : findSub (ctokChars ct) line = some k :=
        candidates_mem (minCandidate_mem hmc)
      have hkb : k + (ctokChars ct).length ≤ line.length := findSub_bound hfs
      cases ct with
      | lineSlash => simp only [processCode, hmc]; exact take_tokensAbsent hmc
      | hash => simp only [processCode, hmc]; exact take_tokensAbsent hmc
      | sqlDash => simp only [processCode, hmc]; exact take_tokensAbsent hmc
      | block =>
        cases hff : findFrom ['*', '/'] line (k + 2) with
        | none => simp only [processCode, hmc, hff]; exact take_tokensAbsent hmc
        | some e =>
          simp only [processCode, hmc, hff]
          apply ih
          obtain ⟨he1, he2⟩ := findFrom_bound (by decide) hff
          simp only [List.length_cons, List.length_nil] at he2
          simp only [ctokChars, List.length_cons, List.length_nil] at hkb
          simp only [List.length_append, List.length_take, List.length_drop]
          omega
      | docBlock =>
        cases hff : findFrom ['*', '/'] line (k + 2) with
        | none => simp only [processCode, hmc, hff]; exact take_tokensAbsent hmc
        | some e =>
          simp only [processCode, hmc, hff]
          apply ih
          obtain ⟨he1, he2⟩ := findFrom_bound (by decide) hff
          simp only [List.length_cons, List.length_nil] at he2
          simp only [ctokChars, List.length_cons, List.length_nil] at hkb
          simp only [List.length_append, List.length_take, List.length_drop]
          omega
      | html =>
        cases hff : findFrom ['-', '-', '>'] line (k + 4) with
        | none => simp only [processCode, hmc, hff]; exact take_tokensAbsent hmc
        | some e =>
          simp only [processCode, hmc, hff]
          apply ih
          obtain ⟨he1, he2⟩ := findFrom_bound (by decide) hff
          simp only [List.length_cons, List.length_nil] at he2
          simp only [ctokChars, List.length_cons, List.length_nil] at hkb
          simp only [List.length_append, List.length_take, List.length_drop]
          omega

theorem processCode_id {line : List Char} (h : tokensAbsent line)
    (fuel : Nat) : processCode (fuel + 1) line = (line, false) := by
  simp only [processCode, candidates_nil_of_tokensAbsent h, minCandidate]

theorem processLine_absent (line : List Char) :
    tokensAbsent (processLine line).1 :=
  processCode_absent _ _ (Nat.le_refl _)

theorem processLine_id {line : List Char} (h : tokensAbsent line) :
    processLine line = (line, false) :=
  processCode_id h _

theorem removeGo_spec :
    ∀ (lines : List (List Char)) (b : Bool) (l : List Char),
      l ∈ removeGo b lines → tokensAbsent l ∧ l.all pyIsSpace = false := by
  intro lines
  induction lines with
  | nil =>
    intro b l hl
    cases b <;> simp [removeGo] at hl
  | cons line rest ih =>
    intro b l hl
    cases b with
    | false =>
      simp only [removeGo] at hl
      rcases List.mem_append.mp hl with h1 | h2
      · split at h1
        · cases h1
        · next hb =>
          simp only [List.mem_singleton] at h1
          subst h1
          exact ⟨processLine_absent line, by
            cases hba : (processLine line).1.all pyIsSpace
            · rfl
            · exact absurd hba hb⟩
      · exact ih _ l h2
    | true =>
      simp only [removeGo] at hl
      cases hf : findSub ['*', '/'] line with
      | some e =>
        rw [hf] at hl
        rcases List.mem_append.mp hl with h1 | h2
        · split at h1
          · cases h1
          · next hb =>
            simp only [List.mem_singleton] at h1
            subst h1
            exact ⟨processLine_absent _, by
              cases hba : (processLine (line.drop (e + 2))).1.all pyIsSpace
              · rfl
              · exact absurd hba hb⟩
        · exact ih _ l h2
      | none =>
        rw [hf] at hl
        exact ih true l hl

theorem removeGo_fixed :
    ∀ lines : List (List Char),
      (∀ l ∈ lines, tokensAbsent l ∧ l.all pyIsSpace = false) →
      removeGo false lines = lines := by
  intro lines
  induction lines with
  | nil => intro _; rfl
  | cons line rest ih =>
    intro h
    have h0 := h line (List.mem_cons_self _ _)
    simp only [removeGo, processLine_id h0.1, h0.2]
    simp only [Bool.false_eq_true, if_false, List.singleton_append,
      List.cons.injEq, true_and]
    exact ih (fun l hl => h l (List.mem_cons_of_mem _ hl))

theorem any_not_of_all_false {l : List Char} {p : Char → Bool}
    (h : l.all p = false) : l.any (fun c => !p c) = true := by
  induction l with
  | nil => cases h
  | cons c t ih =>
    cases hp : p c with
    | false => simp [List.any_cons, hp]
    | true =>
      simp only [List.all_cons, hp, Bool.true_and] at h
      simp [List.any_cons, ih h]

/-- Claim C7: comment stripping is idempotent — for every list of input lines
and every extension, running `remove_comments` on its own output (starting
again in the CODE state) returns that output unchanged. -/
theorem remove_comments_idempotent (lines : List (List Char)) (ext : String) :
    remove_comments (remove_comments lines ext) ext
      = remove_comments lines ext := by
  unfold remove_comments
  exact removeGo_fixed _ (fun l hl => removeGo_spec _ _ _ hl)

/-- Claim C10: every line of `remove_comments`' output contains at least one
non-whitespace character — lines that are blank after comment removal, and
lines that were blank to begin with, are dropped unconditionally. -/
theorem remove_comments_output_nonblank (lines : List (List Char))
    (ext : String) (l : List Char) (h : l ∈ remove_comments lines ext) :
    l.any (fun c => !pyIsSpace c) = true :=
  any_not_of_all_false (removeGo_spec lines false l h).2

/-- Witness for `remove_comments_output_nonblank` at a concrete input. -/
theorem remove_comments_output_nonblank_witness :
    "x = 1".toList ∈ remove_comments ["x = 1".toList] ".py" ∧
    "x = 1".toList.any (fun c => !pyIsSpace c) = true :=
  ⟨by decide,
   remove_comments_output_nonblank ["x = 1".toList] ".py" _ (by decide)⟩

/-- Claim C5, evaluated at the failing input: while `in_multiline_comment` is
set the source searches only for the close marker of the slash-star style.  A
block opened by `/*` does close at `*/` with processing resuming right after
it (second conjunct), but a comment opened by `<!--` is never closed by `-->`
on a later line, so the whole rest of the file is swallowed (first
conjunct — the claim expects the output `["after"]`). -/
theorem multiline_close_marker_eval :
    remove_comments ["<!-- open".toList, "inside -->".toList, "after".toList]
        ".html" = [] ∧
    remove_comments ["a /* open".toList, "inside */ tail".toList,
        "after".toList] ".js"
      = ["a ".toList, " tail".toList, "after".toList] := by decide

/-- Claim C6 counterexample: on `a.py` with lines `import os`, blank,
`print(1)`, the pipeline does not produce only `print(1)` — `.py` has no
entry in `import_patterns`, so the import line survives. -/
theorem py_scenario_counterexample :
    filter_file_lines
        ["import os\n".toList, "\n".toList, "print(1)\n".toList] ".py"
      ≠ ["print(1)\n".toList] := by decide

/-- Claim C6 amended: the blank line is dropped by `remove_comments`, but
the line `import os` is kept, because `.py` is absent from `import_patterns`
and from the package-line extensions. -/
theorem py_scenario_eval :
    filter_file_lines
        ["import os\n".toList, "\n".toList, "print(1)\n".toList] ".py"
      = ["import os\n".toList, "print(1)\n".toList] := by decide

/-- Claim C1 counterexample: for the extension `.txt`, absent from every
per-extension table of the tool, a line carrying a `//` comment is not passed
through unchanged — `remove_comments` strips comments for every extension. -/
theorem absent_extension_counterexample :
    filter_file_lines ["x = 1 // note\n".toList] ".txt"
      ≠ ["x = 1 // note\n".toList] := by decide

/-- Claim C1 amended: for an extension outside the import-pattern and
package-line tables, the import and package filters pass every line, so the
pipeline coincides with `remove_comments`; and `remove_comments` itself never
consults the extension, so comment stripping and blank-line dropping apply
to every extension alike. -/
theorem absent_extension_filtering (ext : String)
    (h : ext ∉ [".kt", ".kts", ".java", ".js", ".ts", ".svelte"])
    (lines : List (List Char)) :
    filter_file_lines lines ext = remove_comments lines ext ∧
    remove_comments lines ext = remove_comments lines "" := by
  simp only [List.mem_cons, List.not_mem_nil, or_false, not_or] at h
  obtain ⟨h1, h2, h3, h4, h5, h6⟩ := h
  have hb1 : (ext == ".kt") = false := beq_eq_false_iff_ne.mpr h1
  have hb2 : (ext == ".kts") = false := beq_eq_false_iff_ne.mpr h2
  have hb3 : (ext == ".java") = false := beq_eq_false_iff_ne.mpr h3
  have hb4 : (ext == ".js") = false := beq_eq_false_iff_ne.mpr h4
  have hb5 : (ext == ".ts") = false := beq_eq_false_iff_ne.mpr h5
  have hb6 : (ext == ".svelte") = false := beq_eq_false_iff_ne.mpr h6
  refine ⟨?_, rfl⟩
  unfold filter_file_lines
  have himp : ∀ l, is_import_line l ext = false := by
    intro l
    unfold is_import_line
    have hlk : import_patterns.lookup ext = none := by
      simp [import_patterns, List.lookup, hb1, hb2, hb3, hb4, hb5, hb6]
    rw [hlk]
  have hpkg : ∀ l, should_remove_entire_line l ext = false := by
    intro l
    unfold should_remove_entire_line
    have hc : ([".kt", ".kts", ".java"]).contains ext = false := by
      simp [List.contains, hb1, hb2, hb3, h1, h2, h3]
    rw [hc]
    simp
  simp [himp, hpkg]

/-- Witness for `absent_extension_filtering` at a concrete input. -/
theorem absent_extension_filtering_witness :
    ".txt" ∉ [".kt", ".kts", ".java", ".js", ".ts", ".svelte"] ∧
    (filter_file_lines ["a // b".toList] ".txt"
        = remove_comments ["a // b".toList] ".txt" ∧
     remove_comments ["a // b".toList] ".txt"
        = remove_comments ["a // b".toList] "") :=
  ⟨by decide, absent_extension_filtering ".txt" (by decide) _⟩

/-! ### Regex facts needed for the anchoring analysis -/

theorem accept_emp : ∀ s, Re.emp.accept s = false := by
  intro s
  induction s with
  | nil => rfl
  | cons c t ih => simpa [Re.accept, Re.deriv] using ih

theorem accept_alt (a b : Re) :
    ∀ s, (Re.alt a b).accept s = (a.accept s || b.accept s) := by
  intro s
  induction s generalizing a b with
  | nil => rfl
  | cons c t ih => simpa [Re.accept, Re.deriv] using ih (a.deriv c) (b.deriv c)

theorem accept_seq_emp (r : Re) : ∀ s, (Re.seq Re.emp r).accept s = false := by
  intro s
  induction s with
  | nil => rfl
  | cons c t ih => simpa [Re.accept, Re.deriv, Re.nullable] using ih

theorem accept_seq_eps (r : Re) :
    ∀ s, (Re.seq Re.eps r).accept s = r.accept s := by
  intro s
  cases s with
  | nil => simp [Re.accept, Re.nullable]
  | cons c t =>
    simp only [Re.accept, Re.deriv, Re.nullable, if_true]
    rw [accept_alt]
    simp [accept_seq_emp]

theorem accept_seq_cls (p : Char → Bool) (r : Re) :
    (Re.seq (Re.cls p) r).accept [] = false ∧
    ∀ c s, (Re.seq (Re.cls p) r).accept (c :: s) = (p c && r.accept s) := by
  constructor
  · rfl
  · intro c s
    simp only [Re.accept, Re.deriv, Re.nullable, Bool.false_eq_true, if_false]
    cases hp : p c with
    | true => simp [accept_seq_eps]
    | false => simp [accept_seq_emp]

theorem accept_eps : ∀ s : List Char, Re.eps.accept s = s.isEmpty := by
  intro s
  cases s with
  | nil => rfl
  | cons c t => simpa [Re.accept, Re.deriv] using accept_emp t

theorem segMatch_lit :
    ∀ lit : List Char, '*' ∉ lit →
      ∀ s, segMatch lit s = true ↔ s = lit := by
  intro lit
  induction lit with
  | nil =>
    intro _ s
    simp [segMatch, globSegRe, accept_eps, List.isEmpty_iff]
  | cons c lit2 ih =>
    intro hns s
    have hc : (c == '*') = false := by
      simp only [List.mem_cons, not_or] at hns
      exact beq_eq_false_iff_ne.mpr (fun h => hns.1 h.symm)
    have hne : ¬c = '*' := by
      intro h
      rw [h] at hc
      simp at hc
    have hg : globSegRe (c :: lit2)
        = Re.seq (Re.cls (fun x => x == c)) (globSegRe lit2) := by
      simp [globSegRe, hc, hne]
    cases s with
    | nil =>
      simp only [segMatch, hg, (accept_seq_cls _ _).1]
      simp
    | cons a s2 =>
      simp only [segMatch, hg, (accept_seq_cls _ _).2]
      have hm : '*' ∉ lit2 := by
        simp only [List.mem_cons, not_or] at hns
        exact hns.2
      constructor
      · intro h
        rw [Bool.and_eq_true] at h
        obtain ⟨ha, hrest⟩ := h
        have ha2 : a = c := beq_iff_eq.mp ha
        have := (ih hm s2).mp hrest
        rw [ha2, this]
      · intro h
        injection h with ha hrest
        rw [Bool.and_eq_true]
        exact ⟨beq_iff_eq.mpr ha, (ih hm s2).mpr hrest⟩

/-! ### Claims about gitignore pattern translation -/

/-- Claim C2, evaluated at the failing input: a nested `sub/.gitignore` with
the negated pattern `!keep.log` is rebased by string concatenation, producing
the literal pattern `sub/!keep.log` whose `!` is part of a path segment
rather than a negation marker (first conjunct).  Consequently `sub/keep.log`
stays ignored despite the negation (second conjunct); had the marker been
kept outside the rebasing, as `!sub/keep.log`, the path would have been
re-included (third conjunct). -/
theorem negated_pattern_rebasing_eval :
    collect_gitignore_patterns sampleTreeNegation
        = ["*.log", "sub/!keep.log"] ∧
    match_file (collect_gitignore_patterns sampleTreeNegation)
        "sub/keep.log" = true ∧
    match_file ["*.log", "!sub/keep.log"] "sub/keep.log" = false := by
  decide

/-- Claim C3 counterexample: the anchored pattern `/name` written in the ROOT
`.gitignore` has its slash stripped and nothing prepended, leaving the
slash-free pattern `name`, which also matches the nested entry
`deep/name` — not only the root-level `name` as the claim states. -/
theorem anchored_pattern_counterexample :
    match_file (collect_gitignore_patterns sampleTreeAnchored)
        "deep/name" = true := by decide

/-- Claim C3 amended: an anchored pattern from a `.gitignore` in a proper
subdirectory is confined to that subtree once rebased — every path matched by
the pattern obtained from `/name` in `sub/.gitignore` begins with the
segment `sub`.  (For the root `.gitignore` the slash is merely stripped, so
anchoring is lost there; see the counterexample.) -/
theorem anchored_pattern_rebased_confined (path : List (List Char))
    (isDir : Bool)
    (h : gitMatchOne (parseGitPattern (rebase_pattern "sub" "/name")) path
        isDir = true) :
    path.head? = some "sub".toList := by
  have hp : parseGitPattern (rebase_pattern "sub" "/name")
      = ⟨false, false, true, ["sub".toList, "name".toList]⟩ := by decide
  rw [hp] at h
  simp only [gitMatchOne, if_true] at h
  cases path with
  | nil => cases h
  | cons s ss =>
    simp only [matchSegs, Bool.and_eq_true] at h
    have hs := (segMatch_lit "sub".toList (by decide) s).mp h.1
    rw [hs]
    rfl

/-- Witness for `anchored_pattern_rebased_confined` at a concrete path. -/
theorem anchored_pattern_rebased_confined_witness :
    gitMatchOne (parseGitPattern (rebase_pattern "sub" "/name"))
        ["sub".toList, "name".toList] false = true ∧
    (["sub".toList, "name".toList] : List (List Char)).head?
        = some "sub".toList :=
  ⟨by decide, anchored_pattern_rebased_confined _ false (by decide)⟩

/-! ### Claims about the directory walk -/

theorem take_append_le {α : Type} (l1 l2 : List α) (n : Nat)
    (h : n ≤ l1.length) : (l1 ++ l2).take n = l1.take n := by
  induction l1 generalizing n with
  | nil =>
    simp only [List.length_nil, Nat.le_zero] at h
    simp [h]
  | cons a t ih =>
    cases n with
    | zero => simp
    | succ n2 =>
      simp only [List.cons_append, List.take_succ_cons, List.cons.injEq,
        true_and]
      exact ih n2 (by simpa using h)

theorem walkFS_pruned (extensions exclude_dirs : List String)
    (ignore_spec : String → Bool) :
    ∀ (fuel : Nat) (cur : List String) (entries : List FSEntry)
      (f : List String),
      f ∈ walkFS extensions exclude_dirs ignore_spec fuel cur entries →
      (∀ j, j + 1 ≤ cur.length →
        ignore_spec (as_posix (cur.take (j + 1)) ++ "/") = false) →
      ∀ i, i + 1 < f.length →
        ignore_spec (as_posix (f.take (i + 1)) ++ "/") = false := by
  intro fuel
  induction fuel with
  | zero => intro cur entries f hf; simp [walkFS] at hf
  | succ fl ih =>
    intro cur entries f hf hinv i hi
    simp only [walkFS] at hf
    rcases List.mem_append.mp hf with h1 | h2
    · obtain ⟨fn, hfn, hfeq⟩ := List.mem_map.mp h1
      subst hfeq
      rw [List.length_append, List.length_cons, List.length_nil] at hi
      rw [take_append_le _ _ _ (by omega)]
      exact hinv i (by omega)
    · obtain ⟨L, hL, hfL⟩ := List.mem_flatten.mp h2
      obtain ⟨d, hd, hLeq⟩ := List.mem_map.mp hL
      subst hLeq
      have hdp := List.mem_filter.mp hd
      have hig : ignore_spec (as_posix (cur ++ [d.1]) ++ "/") = false := by
        have h3 := hdp.2
        rw [Bool.and_eq_true] at h3
        have := h3.2
        cases hx : ignore_spec (as_posix (cur ++ [d.1]) ++ "/") with
        | false => rfl
        | true => rw [hx] at this; cases this
      refine ih (cur ++ [d.1]) d.2 f hfL ?_ i hi
      intro j hj
      rw [List.length_append, List.length_cons, List.length_nil] at hj
      by_cases hc : j + 1 ≤ cur.length
      · rw [take_append_le _ _ _ hc]; exact hinv j hc
      · have hj2 : j + 1 = cur.length + 1 := by omega
        have hlen : (cur ++ [d.1]).length = cur.length + 1 := by simp
        rw [hj2, ← hlen, List.take_length]
        exact hig

/-- Claim C4 amended: the walk never collects a file below a pruned
directory — every proper directory prefix of a collected path was queried
with a trailing slash and reported not ignored by the matcher.  The pattern
pass, however, is a separate earlier `rglob` over the whole tree, so
`.gitignore` files inside ignored directories still contribute their rebased
patterns to the matcher (see `nested_gitignore_patterns_counterexample`). -/
theorem collect_files_respects_ignored_dirs (start_dir : List FSEntry)
    (extensions exclude_dirs : List String) (ignore_spec : String → Bool)
    (f : List String)
    (hf : f ∈ collect_files start_dir extensions exclude_dirs ignore_spec)
    (i : Nat) (hi : i + 1 < f.length) :
    ignore_spec (as_posix (f.take (i + 1)) ++ "/") = false := by
  unfold collect_files at hf
  refine walkFS_pruned extensions exclude_dirs ignore_spec _ [] start_dir f hf
    ?_ i hi
  intro j hj
  simp at hj

/-- Witness for `collect_files_respects_ignored_dirs`. -/
theorem collect_files_respects_ignored_dirs_witness :
    (["sub", "a.py"] ∈ collect_files [FSEntry.dir "sub" [FSEntry.file "a.py" []]]
        [".py"] [] (fun _ => false)) ∧
    (fun _ => false) (as_posix ((["sub", "a.py"] : List String).take 1) ++ "/")
        = false :=
  ⟨by decide,
   collect_files_respects_ignored_dirs
     [FSEntry.dir "sub" [FSEntry.file "a.py" []]] [".py"] [] (fun _ => false)
     ["sub", "a.py"] (by decide) 0 (by decide)⟩

/-- Claim C4 counterexample: in `sampleTreeNestedIgnore` the compiled matcher
reports the directory `build/` ignored, yet the `.gitignore` nested inside
`build` has contributed its rebased pattern `build/*.py` to the matcher —
`rglob` scans ignored directories too, contradicting the claim that no nested
`.gitignore` inside an ignored directory contributes any pattern. -/
theorem nested_gitignore_patterns_counterexample :
    match_file (collect_gitignore_patterns sampleTreeNestedIgnore) "build/"
        = true ∧
    "build/*.py" ∈ collect_gitignore_patterns sampleTreeNestedIgnore := by
  decide

theorem walkFS_excluded (extensions exclude_dirs : List String)
    (ignore_spec : String → Bool) :
    ∀ (fuel : Nat) (cur : List String) (entries : List FSEntry)
      (f : List String),
      f ∈ walkFS extensions exclude_dirs ignore_spec fuel cur entries →
      (∀ d ∈ cur, d ∉ exclude_dirs) →
      ∀ d ∈ f.dropLast, d ∉ exclude_dirs := by
  intro fuel
  induction fuel with
  | zero => intro cur entries f hf; simp [walkFS] at hf
  | succ fl ih =>
    intro cur entries f hf hinv
    simp only [walkFS] at hf
    rcases List.mem_append.mp hf with h1 | h2
    · obtain ⟨fn, hfn, hfeq⟩ := List.mem_map.mp h1
      subst hfeq
      rw [List.dropLast_concat]
      exact hinv
    · obtain ⟨L, hL, hfL⟩ := List.mem_flatten.mp h2
      obtain ⟨d, hd, hLeq⟩ := List.mem_map.mp hL
      subst hLeq
      have hdp := List.mem_filter.mp hd
      have hnx : d.1 ∉ exclude_dirs := by
        have h3 := hdp.2
        rw [Bool.and_eq_true] at h3
        have h4 := h3.1
        intro hmem
        have : exclude_dirs.contains d.1 = true := by
          rw [List.contains_eq_any_beq]
          exact List.any_eq_true.mpr ⟨d.1, hmem, by simp⟩
        rw [this] at h4
        cases h4
      refine ih (cur ++ [d.1]) d.2 f hfL ?_
      intro x hx
      rcases List.mem_append.mp hx with h | h
      · exact hinv x h
      · simp only [List.mem_singleton] at h
        subst h
        exact hnx

/-- Claim C8: for every tree, extension list, exclude set and ignore matcher,
no collected file path passes through a directory whose bare name lies in the
exclude set, however deep it is nested. -/
theorem collect_files_excluded_dirs (start_dir : List FSEntry)
    (extensions exclude_dirs : List String) (ignore_spec : String → Bool)
    (f : List String)
    (hf : f ∈ collect_files start_dir extensions exclude_dirs ignore_spec) :
    ∀ d ∈ f.dropLast, d ∉ exclude_dirs := by
  unfold collect_files at hf
  exact walkFS_excluded extensions exclude_dirs ignore_spec _ [] start_dir f hf
    (by simp)

/-- Witness for `collect_files_excluded_dirs`. -/
theorem collect_files_excluded_dirs_witness :
    (["src", "b.py"] ∈ collect_files
        [FSEntry.dir "build" [FSEntry.file "a.py" []],
         FSEntry.dir "src" [FSEntry.file "b.py" []]]
        [".py"] ["build"] (fun _ => false)) ∧
    "src" ∉ ["build"] :=
  ⟨by decide,
   collect_files_excluded_dirs
     [FSEntry.dir "build" [FSEntry.file "a.py" []],
      FSEntry.dir "src" [FSEntry.file "b.py" []]]
     [".py"] ["build"] (fun _ => false) ["src", "b.py"] (by decide)
     "src" (by decide)⟩

/-! ### Claim about write_output error handling -/

theorem concatChunks_append
    (xs ys : List (String × Except String (List (List Char)))) :
    concatChunks (xs ++ ys) = concatChunks xs ++ concatChunks ys := by
  induction xs with
  | nil => rfl
  | cons x t ih => simp [concatChunks, ih]

/-- Claim C9: a file whose read raised is caught by `write_output`: it
contributes exactly its header followed by the inline placeholder comment at
its own position, and the chunks written for every file before and after it
are exactly what they would be on their own — the loop continues and no other
file's output is affected. -/
theorem write_output_read_failure
    (xs ys : List (String × Except String (List (List Char))))
    (p e : String) :
    write_output (xs ++ (p, Except.error e) :: ys)
      = concatChunks xs ++
        (header p ++ ("<!-- Could not read file: " ++ e ++ " -->\n").toList)
        ++ concatChunks ys ∧
    fileChunk (p, Except.error e)
      = header p ++ ("<!-- Could not read file: " ++ e ++ " -->\n").toList := by
  refine ⟨?_, rfl⟩
  cases xs with
  | nil => simp [write_output, concatChunks, fileChunk]
  | cons x t =>
    simp [write_output, concatChunks, concatChunks_append, fileChunk,
      List.append_assoc]
